import Mathlib

/-!
# Literature Finder (`src/app.js`): query classification and result normalisation

A shallow embedding of the pure parts of `app.js`:

* `isDOI`, `extractDOI`, `handleSearch` (query classification),
* `formatCrossRefResult`, `formatAuthors`, `cleanAbstract` (normalisation of a CrossRef item),
* `checkUnpaywall` (open-access decision).

JavaScript strings are sequences of UTF-16 code units; they are modelled as `List Nat`
(`JsString`), one number per code unit.  `js "..."` writes an ASCII literal of the source.

A JavaScript value that may be `undefined` (a missing JSON field) is an `Option`; the
truthiness tests of the source (`x ? a : b`, `x || y`, `x && y`) are the functions `truthy…`
below: a missing field and the empty string are falsy, every array and object is truthy.
-/

namespace LiteratureFinder

/-- A JavaScript string: the list of its UTF-16 code units. -/
abbrev JsString := List Nat

/-- The code units of a source literal (used for ASCII literals only). -/
def js (s : String) : JsString := s.toList.map Char.toNat

/-! ## Whitespace, `String.prototype.trim` -/

/-- The code units matched by `\s` and removed by `trim()`: ECMAScript WhiteSpace
(TAB, VT, FF, SP, NBSP, ZWNBSP, category Zs) and LineTerminator (LF, CR, LS, PS). -/
def isJsSpace (c : Nat) : Bool :=
  c == 0x09 || c == 0x0A || c == 0x0B || c == 0x0C || c == 0x0D || c == 0x20 ||
  c == 0xA0 || c == 0x1680 || (0x2000 ≤ c && c ≤ 0x200A) ||
  c == 0x2028 || c == 0x2029 || c == 0x202F || c == 0x205F || c == 0x3000 || c == 0xFEFF

/-- The class `\d`: the ASCII digits `0`..`9`. -/
def isDigit (c : Nat) : Bool := 0x30 ≤ c && c ≤ 0x39

/-- The class `[^\s]`. -/
def isNonSpace (c : Nat) : Bool := !isJsSpace c

/-- The class `[^>]`. -/
def isNotGt (c : Nat) : Bool := c != 0x3E

/-- The method `str.trim()`: leading and trailing white space removed. -/
def trim (s : JsString) : JsString :=
  List.rdropWhile isJsSpace (List.dropWhile isJsSpace s)

/-! ## Regular expressions

The regular-expression literals of `app.js` are sequences of three kinds of term: a literal
code unit, a greedy repetition `C{lo,}` of a one-unit character class (`\d{4,}`, `[^\s]+`,
`[^>]*`), and the assertion `$`.  A leading `^` is the flag `bos`.  The matcher is the
backtracking matcher of ECMAScript: every term is run against a continuation for the rest
of the pattern, a greedy repetition tries the longest run first and gives units back one at
a time. -/

/-- One term of a pattern. -/
inductive Atom where
  /-- A literal code unit. -/
  | chr (c : Nat)
  /-- Greedy `C{lo,}` of the class with characteristic function `p`. -/
  | rep (p : Nat → Bool) (lo : Nat)
  /-- The assertion `$` (no `m` flag: end of input). -/
  | eos

/-- A pattern: `bos` is a leading `^`. -/
structure Regex where
  bos : Bool
  atoms : List Atom

/-- Greedy repetition with backtracking: consume units in class `p` as long as possible,
then run the continuation `k`; on failure give one unit back.  `lo` is the number of
repetitions still required.  The result is the number of code units matched. -/
def repGreedy (p : Nat → Bool) (k : List Nat → Option Nat) : Nat → List Nat → Option Nat
  | lo, [] => if lo = 0 then k [] else none
  | lo, x :: s =>
    if p x then
      match repGreedy p k (lo - 1) s with
      | some n => some (n + 1)
      | none => if lo = 0 then k (x :: s) else none
    else if lo = 0 then k (x :: s) else none

/-- Run one term against the continuation `k`. -/
def matchAtom (a : Atom) (k : List Nat → Option Nat) : List Nat → Option Nat :=
  match a with
  | .chr c => fun s =>
    match s with
    | [] => none
    | x :: s' => if x = c then (k s').map (· + 1) else none
  | .rep p lo => repGreedy p k lo
  | .eos => fun s => if s.isEmpty then k s else none

/-- Match the terms at the start of the input: the length of the match, if any. -/
def matchAtoms : List Atom → List Nat → Option Nat
  | [] => fun _ => some 0
  | a :: as => matchAtom a (matchAtoms as)

/-- Search of `RegExp.prototype.exec` from position 0 (no `g` flag): the first position, from
the left, at which the pattern matches; the result is (position, length).  With a leading `^`
only position 0 can match. -/
def regexExec (re : Regex) : List Nat → Option (Nat × Nat)
  | [] => (matchAtoms re.atoms []).map (fun n => (0, n))
  | x :: s =>
    match matchAtoms re.atoms (x :: s) with
    | some n => some (0, n)
    | none =>
      if re.bos then none
      else (regexExec re s).map (fun r => (r.1 + 1, r.2))

/-- The method `re.test(str)`. -/
def regexTest (re : Regex) (s : JsString) : Bool := (regexExec re s).isSome

/-- The expression `str.match(re)` for a pattern without `g`: element `[0]` of the result
array (the matched text), or `none` for `null`. -/
def regexMatch0 (re : Regex) (s : JsString) : Option JsString :=
  (regexExec re s).map (fun r => (s.drop r.1).take r.2)

/-- The method `str.replace(re, rep)` for a pattern with the `g` flag and a replacement text
without `$`: scan left to right, each match is replaced and the scan resumes after it; after
an empty match the scan advances by one unit.  `skip` counts the units of the current match
still to be passed over. -/
def replaceAllAux (re : Regex) (rep : JsString) : Nat → List Nat → List Nat
  | _, [] => if (matchAtoms re.atoms []).isSome then rep else []
  | skip + 1, _ :: s => replaceAllAux re rep skip s
  | 0, x :: s =>
    match matchAtoms re.atoms (x :: s) with
    | none => x :: replaceAllAux re rep 0 s
    | some 0 => rep ++ x :: replaceAllAux re rep 0 s
    | some (n + 1) => rep ++ replaceAllAux re rep n s

/-- The method `str.replace(re, rep)` with a global pattern. -/
def replaceAll (re : Regex) (rep : JsString) (s : JsString) : JsString :=
  replaceAllAux re rep 0 s

/-- The terms of a literal text. -/
def litAtoms (s : JsString) : List Atom := s.map Atom.chr

/-! ## Query classifier (`app.js` lines 126-141) -/

/-- Terms of `10\.\d{4,}\/[^\s]+`.  The `i` flag of the source is inert here: the pattern
names no cased code unit (`1`, `0`, `.`, `/`, `\d`, `\s`). -/
def doiCore : List Atom :=
  [.chr 0x31, .chr 0x30, .chr 0x2E, .rep isDigit 4, .chr 0x2F, .rep isNonSpace 1]

/-- The literal `/^10\.\d{4,}\/[^\s]+$/i`. -/
def doiPattern : Regex := { bos := true, atoms := doiCore ++ [.eos] }

/-- The literal `/10\.\d{4,}\/[^\s]+/i`. -/
def doiSearchPattern : Regex := { bos := false, atoms := doiCore }

/-- Function `isDOI(str)`. -/
def isDOI (str : JsString) : Bool := regexTest doiPattern (trim str)

/-- Function `extractDOI(str)`. -/
def extractDOI (str : JsString) : JsString :=
  match regexMatch0 doiSearchPattern str with
  | some m => m
  | none => str

/-- The constant `cleanDOI` of `searchByDOI(doi)`: the DOI appended, percent-encoded, to the
works path of the request. -/
def cleanDOI (doi : JsString) : JsString := extractDOI doi

/-- What `handleSearch` does with the text of the search box. -/
inductive SearchAction where
  /-- Empty query: `showError`, no request. -/
  | validationError
  /-- The branch `searchByDOI(query)`. -/
  | byDOI (query : JsString)
  /-- The branch `searchByQuery(query, currentSearchType)`. -/
  | byQuery (query : JsString) (searchType : JsString)
  deriving DecidableEq, Repr

/-- Function `handleSearch()` up to the choice of the request: `input` is
`elements.searchInput.value`, `currentSearchType` the module-level state. -/
def handleSearch (input : JsString) (currentSearchType : JsString) : SearchAction :=
  let query := trim input
  if query.isEmpty then .validationError
  else if isDOI query || currentSearchType == js "doi" then .byDOI query
  else .byQuery query currentSearchType

/-! ## Result normaliser (`app.js` lines 190-238) -/

/-- Truthiness of a string-valued field: present and not the empty string. -/
def truthyStr : Option JsString → Bool
  | some (_ :: _) => true
  | _ => false

/-- The expression `a || b` for a string-valued field `a` and a string `b`. -/
def jsOr (a : Option JsString) (b : JsString) : JsString :=
  if truthyStr a then a.getD [] else b

/-- One entry of `item.author`. -/
structure Author where
  family : Option JsString
  given : Option JsString
  name : Option JsString
  deriving DecidableEq, Repr

/-- The method `str.charAt(0)`: the first code unit, or the empty string. -/
def charAt0 (s : JsString) : JsString := s.take 1

/-- The callback of `map` in `formatAuthors`. -/
def formatAuthor (author : Author) : JsString :=
  if truthyStr author.family && truthyStr author.given then
    author.family.getD [] ++ js ", " ++ charAt0 (author.given.getD []) ++ js "."
  else jsOr author.name (jsOr author.family (js "Unknown"))

/-- The loop of `Array.prototype.join`: `r` is the text so far, `first` holds before the
first element. -/
def jsJoinLoop (sep : JsString) : JsString → Bool → List JsString → JsString
  | r, _, [] => r
  | r, first, x :: xs => jsJoinLoop sep ((if first then r else r ++ sep) ++ x) false xs

/-- The method `arr.join(sep)`. -/
def jsJoin (sep : JsString) (xs : List JsString) : JsString := jsJoinLoop sep [] true xs

/-- Function `formatAuthors(authors)`; `none` is a missing `author` field. -/
def formatAuthors (authors : Option (List Author)) : JsString :=
  match authors with
  | none => js "Unknown authors"
  | some authors =>
    if authors.length = 0 then js "Unknown authors"
    else
      let formatted := (authors.take 5).map formatAuthor
      let formatted := if authors.length > 5 then formatted ++ [js "et al."] else formatted
      jsJoin (js "; ") formatted

/-- The literal `/<[^>]*>/g`. -/
def tagPattern : Regex := { bos := false, atoms := [.chr 0x3C, .rep isNotGt 0, .chr 0x3E] }

/-- The literal `/&lt;/g`. -/
def ltPattern : Regex := { bos := false, atoms := litAtoms (js "&lt;") }

/-- The literal `/&gt;/g`. -/
def gtPattern : Regex := { bos := false, atoms := litAtoms (js "&gt;") }

/-- The literal `/&amp;/g`. -/
def ampPattern : Regex := { bos := false, atoms := litAtoms (js "&amp;") }

/-- Function `cleanAbstract(abstract)`. -/
def cleanAbstract (abstract : JsString) : JsString :=
  trim
    (replaceAll ampPattern (js "&")
      (replaceAll gtPattern (js ">")
        (replaceAll ltPattern (js "<")
          (replaceAll tagPattern [] abstract))))

/-- A date object of the API (`published`, `created`): the field `date-parts`, an array of
arrays of numbers, may be missing. -/
structure DateObj where
  dateParts : Option (List (List Int))
  deriving DecidableEq, Repr

/-- A raw item of the CrossRef API: every field may be missing (`none`). -/
structure Item where
  title : Option (List JsString)
  author : Option (List Author)
  published : Option DateObj
  created : Option DateObj
  containerTitle : Option (List JsString)
  DOI : Option JsString
  URL : Option JsString
  abstract : Option JsString
  type : Option JsString
  isReferencedByCount : Option Int
  publisher : Option JsString
  deriving DecidableEq, Repr

/-- The item with every field missing, `{}`. -/
def emptyItem : Item :=
  { title := none, author := none, published := none, created := none,
    containerTitle := none, DOI := none, URL := none, abstract := none, type := none,
    isReferencedByCount := none, publisher := none }

/-- A thrown JavaScript exception. -/
inductive JsError where
  /-- The error of reading a property of `undefined`. -/
  | typeError
  /-- A failed request (time-out, HTTP status, malformed JSON). -/
  | requestFailed
  deriving DecidableEq, Repr

deriving instance DecidableEq for Except

/-- The value of the field `year` of a record. -/
inductive YearVal where
  /-- The value `undefined`. -/
  | undefined
  /-- The empty string `''`. -/
  | empty
  /-- A number. -/
  | num (n : Int)
  deriving DecidableEq, Repr

/-- The expression `d['date-parts'][0][0]` for a date object `d`: reading `[0]` of
`undefined` throws, reading past the end of an array gives `undefined`. -/
def dateParts00 (d : DateObj) : Except JsError YearVal :=
  match d.dateParts with
  | none => .error .typeError
  | some parts =>
    match parts[0]? with
    | none => .error .typeError
    | some part =>
      match part[0]? with
      | none => .ok .undefined
      | some y => .ok (.num y)

/-- The expression of the field `year` in `formatCrossRefResult`. -/
def yearOf (item : Item) : Except JsError YearVal :=
  match item.published with
  | some published =>
    match published.dateParts with
    | some _ => dateParts00 published
    | none => .ok .empty
  | none =>
    match item.created with
    | some created => dateParts00 created
    | none => .ok .empty

/-- The record built by `formatCrossRefResult`; `none` in `title` and `journal` is the value
`undefined`. -/
structure Record where
  title : Option JsString
  authors : JsString
  year : YearVal
  journal : Option JsString
  doi : JsString
  url : JsString
  abstract : JsString
  type : JsString
  citations : Int
  publisher : JsString
  deriving DecidableEq, Repr

/-- Function `formatCrossRefResult(item)`: the fields are evaluated in the order of the
object literal; only the expression of `year` can throw. -/
def formatCrossRefResult (item : Item) : Except JsError Record :=
  let title := match item.title with
    | some titles => titles[0]?
    | none => some (js "Untitled")
  let authors := formatAuthors item.author
  let journal := match item.containerTitle with
    | some names => names[0]?
    | none => some []
  let abstract := match item.abstract with
    | some (c :: a) => cleanAbstract (c :: a)
    | _ => []
  let citations := match item.isReferencedByCount with
    | some n => if n ≠ 0 then n else 0
    | none => 0
  match yearOf item with
  | .error e => .error e
  | .ok year =>
    .ok
      { title := title
        authors := authors
        year := year
        journal := journal
        doi := jsOr item.DOI []
        url := jsOr item.URL
          (if truthyStr item.DOI then js "https://doi.org/" ++ item.DOI.getD [] else [])
        abstract := abstract
        type := jsOr item.type (js "article")
        citations := citations
        publisher := jsOr item.publisher [] }

/-! ## Open-access resolver (`app.js` lines 557-585) -/

/-- The object `best_oa_location` of an Unpaywall response. -/
structure OaLocation where
  url_for_pdf : Option JsString
  url : Option JsString
  deriving DecidableEq, Repr

/-- A parsed Unpaywall response. -/
structure UnpaywallData where
  is_oa : Option Bool
  best_oa_location : Option OaLocation
  deriving DecidableEq, Repr

/-- The messages of `showToast` in `checkUnpaywall`. -/
inductive Toast where
  /-- No DOI. -/
  | noDoi
  /-- Checking for an open-access version. -/
  | checking
  /-- Open-access PDF found, opening it. -/
  | foundPdf
  /-- Open-access landing page found. -/
  | foundPage
  /-- No open-access version found. -/
  | notFound
  /-- The check failed. -/
  | failed
  deriving DecidableEq, Repr

/-- An effect of `checkUnpaywall` on the page. -/
inductive UiEffect where
  /-- A call `showToast(msg)`. -/
  | toast (msg : Toast)
  /-- A call `window.open(url, '_blank')`. -/
  | windowOpen (url : JsString)
  deriving DecidableEq, Repr

/-- Function `checkUnpaywall(doi)`: `response` is what `fetchWithTimeout(url)` followed by
`response.json()` gives, a parsed response or a thrown error; the result is the list of
effects in order. -/
def checkUnpaywall (doi : JsString) (response : Except JsError UnpaywallData) :
    List UiEffect :=
  if doi.isEmpty then [.toast .noDoi]
  else
    .toast .checking ::
      match response with
      | .error _ => [.toast .failed]
      | .ok data =>
        let isOa := data.is_oa == some true
        let hasLocation := data.best_oa_location.isSome
        let pdf := data.best_oa_location.bind (fun loc => loc.url_for_pdf)
        let page := data.best_oa_location.bind (fun loc => loc.url)
        if isOa && hasLocation && truthyStr pdf then
          [.toast .foundPdf, .windowOpen (pdf.getD [])]
        else if isOa && hasLocation && truthyStr page then
          [.toast .foundPage, .windowOpen (page.getD [])]
        else [.toast .notFound]

/-! ## Predicates of the specification -/

/-- The DOI form of the specification: `10.` followed by four or more decimal digits, a
slash, and one or more code units that are not white space. -/
def DoiForm (m : JsString) : Prop :=
  ∃ ds rest, m = js "10." ++ ds ++ js "/" ++ rest ∧ 4 ≤ ds.length ∧
    (∀ d ∈ ds, isDigit d = true) ∧ rest ≠ [] ∧ ∀ c ∈ rest, isJsSpace c = false

/-- The first date component of a date field of the item, when the field, its `date-parts`,
the first entry of `date-parts` and the first number of that entry are all present. -/
def firstDatePart (d : Option DateObj) : Option Int :=
  match d with
  | some ⟨some ((y :: _) :: _)⟩ => some y
  | _ => none

/-- In the words of the specification: every span from a `<` to the next `>` removed.
`inTag` holds inside such a span; a `<` with no later `>` opens no span. -/
def stripSpans : Bool → JsString → JsString
  | _, [] => []
  | true, c :: s => if c = 0x3E then stripSpans false s else stripSpans true s
  | false, c :: s =>
    if c = 0x3C ∧ 0x3E ∈ s then stripSpans true s else c :: stripSpans false s

/-- In the words of the specification: every occurrence of the text `pat`, from the left and
without overlap, replaced by `rep`. -/
def replaceEvery (pat rep : JsString) (s : JsString) : JsString :=
  if pat ≠ [] ∧ pat.isPrefixOf s = true then
    rep ++ replaceEvery pat rep (s.drop pat.length)
  else
    match s with
    | [] => []
    | c :: s' => c :: replaceEvery pat rep s'
termination_by s.length
decreasing_by
  all_goals simp_wf
  rename_i h
  have h1 : pat.length ≤ s.length := (List.isPrefixOf_iff_prefix.1 h.2).length_le
  have h2 : 0 < pat.length := List.length_pos.2 h.1
  omega

/-- The abstract cleaning of the specification: strip all markup tags, then decode `&lt;`,
`&gt;`, `&amp;` in that order, then trim. -/
def cleanAbstractSpec (abstract : JsString) : JsString :=
  trim
    (replaceEvery (js "&amp;") (js "&")
      (replaceEvery (js "&gt;") (js ">")
        (replaceEvery (js "&lt;") (js "<")
          (stripSpans false abstract))))

/-- Every code unit `x` of a text replaced by the text `f x`. -/
def chunks (f : Nat → JsString) : JsString → JsString
  | [] => []
  | x :: t => f x ++ chunks f t

/-- Every occurrence of the code unit `c` replaced by the text `w`. -/
def replaceUnit (c : Nat) (w : JsString) (t : JsString) : JsString :=
  chunks (fun x => if x = c then w else [x]) t

/-- Entity escaping: every `&` replaced by `&amp;`, then every `<` by `&lt;` and every `>`
by `&gt;`. -/
def escapeEntities (t : JsString) : JsString :=
  replaceUnit 0x3E (js "&gt;") (replaceUnit 0x3C (js "&lt;") (replaceUnit 0x26 (js "&amp;") t))

/-! ## Lemmas on the matcher -/

theorem repGreedy_short (p : Nat → Bool) (k : List Nat → Option Nat) :
    ∀ (s : List Nat) (lo : Nat), (s.takeWhile p).length < lo → repGreedy p k lo s = none := by
  intro s
  induction s with
  | nil => intro lo h; simp at h; simp [repGreedy]; omega
  | cons x s ih =>
    intro lo h
    by_cases hx : p x = true
    · simp [List.takeWhile, hx] at h
      have h1 := ih (lo - 1) (by omega)
      have h2 : lo ≠ 0 := by omega
      simp [repGreedy, hx, h1, h2]
    · simp [List.takeWhile, hx] at h
      have h2 : lo ≠ 0 := by omega
      simp [repGreedy, hx, h2]

theorem repGreedy_blocked (p : Nat → Bool) (k : List Nat → Option Nat)
    (hk : ∀ x u, p x = true → k (x :: u) = none) :
    ∀ (s : List Nat) (lo : Nat), lo ≤ (s.takeWhile p).length →
      repGreedy p k lo s = (k (s.dropWhile p)).map (· + (s.takeWhile p).length) := by
  intro s
  induction s with
  | nil => intro lo h; simp at h; simp [repGreedy, h]
  | cons x s ih =>
    intro lo h
    by_cases hx : p x = true
    · simp [List.takeWhile, hx] at h
      have h1 := ih (lo - 1) (by omega)
      simp only [repGreedy, hx, if_true, h1, List.takeWhile, List.dropWhile, List.length_cons]
      cases hks : k (List.dropWhile p s) with
      | none => simp [hk x s hx]
      | some m => simp; omega
    · have h2 : lo = 0 := by simpa [List.takeWhile, hx] using h
      simp [repGreedy, hx, h2, List.takeWhile, List.dropWhile]

theorem repGreedy_longest (p : Nat → Bool) (k : List Nat → Option Nat) :
    ∀ (s : List Nat) (lo m : Nat), lo ≤ (s.takeWhile p).length →
      k (s.dropWhile p) = some m →
      repGreedy p k lo s = some (m + (s.takeWhile p).length) := by
  intro s
  induction s with
  | nil => intro lo m h hm; simp at h; simpa [repGreedy, h] using hm
  | cons x s ih =>
    intro lo m h hm
    by_cases hx : p x = true
    · simp [List.takeWhile, hx] at h
      simp only [List.dropWhile, hx] at hm
      have h1 := ih (lo - 1) m (by omega) hm
      simp only [repGreedy, hx, if_true, h1, List.takeWhile, List.length_cons]
      simp; omega
    · have h2 : lo = 0 := by simpa [List.takeWhile, hx] using h
      simp only [List.dropWhile, hx] at hm
      simp [repGreedy, hx, h2, List.takeWhile, hm]

theorem matchAtoms_append (as bs : List Atom) :
    matchAtoms (as ++ bs) = as.foldr matchAtom (matchAtoms bs) := by
  induction as with
  | nil => rfl
  | cons a as ih => simp [matchAtoms, ih]

theorem matchAtom_chr_some_iff (c : Nat) (k : List Nat → Option Nat) (t : List Nat) (n : Nat) :
    matchAtom (.chr c) k t = some n ↔ ∃ s m, t = c :: s ∧ k s = some m ∧ n = m + 1 := by
  cases t with
  | nil => simp [matchAtom]
  | cons x s =>
    simp only [matchAtom]
    by_cases hx : x = c
    · subst hx
      cases hks : k s <;> simp [hks, eq_comm]
    · simp [hx]

theorem repGreedy_blocked_some_iff (p : Nat → Bool) (k : List Nat → Option Nat)
    (hk : ∀ x u, p x = true → k (x :: u) = none) (lo : Nat) (s : List Nat) (n : Nat) :
    repGreedy p k lo s = some n ↔
      lo ≤ (s.takeWhile p).length ∧
        ∃ m, k (s.dropWhile p) = some m ∧ n = m + (s.takeWhile p).length := by
  by_cases h : lo ≤ (s.takeWhile p).length
  · rw [repGreedy_blocked p k hk s lo h]
    cases hks : k (List.dropWhile p s) <;> simp [h, hks, eq_comm]
  · rw [repGreedy_short p k s lo (by omega)]
    simp [h]

theorem repGreedy_last_some_iff (p : Nat → Bool) (lo : Nat) (s : List Nat) (n : Nat) :
    repGreedy p (fun _ => some 0) lo s = some n ↔
      lo ≤ (s.takeWhile p).length ∧ n = (s.takeWhile p).length := by
  by_cases h : lo ≤ (s.takeWhile p).length
  · rw [repGreedy_longest p _ s lo 0 h rfl]
    simp [h, eq_comm]
  · rw [repGreedy_short p _ s lo (by omega)]
    simp [h]

theorem doiCore_some_iff (k : List Nat → Option Nat) (t : List Nat) (n : Nat) :
    doiCore.foldr matchAtom k t = some n ↔
      ∃ s3 r j, t = 0x31 :: 0x30 :: 0x2E :: s3 ∧ 4 ≤ (s3.takeWhile isDigit).length ∧
        s3.dropWhile isDigit = 0x2F :: r ∧ repGreedy isNonSpace k 1 r = some j ∧
        n = j + (s3.takeWhile isDigit).length + 4 := by
  have hblock : ∀ x u, isDigit x = true →
      matchAtom (.chr 0x2F) (repGreedy isNonSpace k 1) (x :: u) = none := by
    intro x u hx
    have : x ≠ 0x2F := by rintro rfl; simp [isDigit] at hx
    simp [matchAtom, this]
  have hfold : doiCore.foldr matchAtom k =
      matchAtom (.chr 0x31) (matchAtom (.chr 0x30) (matchAtom (.chr 0x2E)
        (repGreedy isDigit (matchAtom (.chr 0x2F) (repGreedy isNonSpace k 1)) 4))) := rfl
  rw [hfold]
  constructor
  · intro h
    obtain ⟨s1, m1, rfl, h1, rfl⟩ := (matchAtom_chr_some_iff _ _ _ _).1 h
    obtain ⟨s2, m2, rfl, h2, rfl⟩ := (matchAtom_chr_some_iff _ _ _ _).1 h1
    obtain ⟨s3, m3, rfl, h3, rfl⟩ := (matchAtom_chr_some_iff _ _ _ _).1 h2
    obtain ⟨hlen, m4, h4, rfl⟩ := (repGreedy_blocked_some_iff _ _ hblock _ _ _).1 h3
    obtain ⟨r, j, hr, hj, rfl⟩ := (matchAtom_chr_some_iff _ _ _ _).1 h4
    exact ⟨s3, r, j, rfl, hlen, hr, hj, by omega⟩
  · rintro ⟨s3, r, j, rfl, hlen, hr, hj, hn⟩
    refine (matchAtom_chr_some_iff _ _ _ _).2
      ⟨_, j + (s3.takeWhile isDigit).length + 3, rfl, ?_, by omega⟩
    refine (matchAtom_chr_some_iff _ _ _ _).2
      ⟨_, j + (s3.takeWhile isDigit).length + 2, rfl, ?_, by omega⟩
    refine (matchAtom_chr_some_iff _ _ _ _).2
      ⟨_, j + (s3.takeWhile isDigit).length + 1, rfl, ?_, by omega⟩
    refine (repGreedy_blocked_some_iff _ _ hblock _ _ _).2 ⟨hlen, j + 1, ?_, by omega⟩
    exact (matchAtom_chr_some_iff _ _ _ _).2 ⟨r, j, hr, hj, rfl⟩

theorem dropWhile_head_false (p : Nat → Bool) :
    ∀ (s : List Nat) (c : Nat) (u : List Nat), s.dropWhile p = c :: u → p c = false := by
  intro s
  induction s with
  | nil => intro c u h; simp at h
  | cons x s ih =>
    intro c u h
    by_cases hx : p x = true
    · rw [List.dropWhile_cons_of_pos hx] at h
      exact ih c u h
    · rw [List.dropWhile_cons_of_neg hx] at h
      simp only [List.cons.injEq] at h
      rw [← h.1]; simpa using hx

theorem doiForm_iff (m : JsString) :
    DoiForm m ↔ ∃ ds rest, m = 0x31 :: 0x30 :: 0x2E :: (ds ++ 0x2F :: rest) ∧ 4 ≤ ds.length ∧
      (∀ d ∈ ds, isDigit d = true) ∧ rest ≠ [] ∧ ∀ c ∈ rest, isNonSpace c = true := by
  have h1 : js "10." = [0x31, 0x30, 0x2E] := by decide
  have h2 : js "/" = [0x2F] := by decide
  simp only [DoiForm, h1, h2, isNonSpace, Bool.not_eq_true', List.cons_append, List.nil_append,
    List.append_assoc]

/-- A text starts with a DOI form exactly when the core pattern matches at its start; the
match is the DOI form extended to the next white space. -/
theorem doiCore_match_iff (t : List Nat) (n : Nat) :
    matchAtoms doiCore t = some n ↔
      ∃ m tail, t = m ++ tail ∧ DoiForm m ∧ n = m.length ∧
        (∀ c u, tail = c :: u → isJsSpace c = true) ∧ ∀ c ∈ m, isJsSpace c = false := by
  have hm : matchAtoms doiCore = doiCore.foldr matchAtom (fun _ => some 0) := by
    have h := matchAtoms_append doiCore []
    simpa [matchAtoms] using h
  rw [hm, doiCore_some_iff]
  constructor
  · rintro ⟨s3, r, j, rfl, hlen, hr, hj, rfl⟩
    obtain ⟨h1, rfl⟩ := (repGreedy_last_some_iff _ _ _ _).1 hj
    have hs3 := List.takeWhile_append_dropWhile isDigit s3
    have hrr := List.takeWhile_append_dropWhile isNonSpace r
    refine ⟨0x31 :: 0x30 :: 0x2E :: (s3.takeWhile isDigit ++ 0x2F :: r.takeWhile isNonSpace),
      r.dropWhile isNonSpace, ?_, ?_, ?_, ?_, ?_⟩
    · simp only [List.cons_append, List.append_assoc, hrr, ← hr, hs3]
    · refine (doiForm_iff _).2 ⟨_, _, rfl, hlen, fun d hd => List.mem_takeWhile_imp hd, ?_,
        fun c hc => List.mem_takeWhile_imp hc⟩
      intro h0; rw [h0] at h1; simp at h1
    · simp; omega
    · intro c u hcu
      have := dropWhile_head_false _ _ _ _ hcu
      simpa [isNonSpace] using this
    · intro c hc
      simp only [List.mem_cons, List.mem_append] at hc
      rcases hc with rfl | rfl | rfl | hc | rfl | hc
      · decide
      · decide
      · decide
      · have := List.mem_takeWhile_imp hc
        simp only [isDigit, Bool.and_eq_true, decide_eq_true_eq] at this
        simp [isJsSpace]; omega
      · decide
      · have := List.mem_takeWhile_imp hc
        simpa [isNonSpace] using this
  · rintro ⟨m, tail, rfl, hform, rfl, htail, -⟩
    obtain ⟨ds, rest, rfl, hlen, hds, hne, hrest⟩ := (doiForm_iff _).1 hform
    have hslash : ¬ (isDigit 0x2F = true) := by decide
    have htw : (ds ++ 0x2F :: rest ++ tail).takeWhile isDigit = ds := by
      rw [List.append_assoc, List.takeWhile_append_of_pos hds]
      simp [List.takeWhile_cons_of_neg hslash]
    have hdw : (ds ++ 0x2F :: rest ++ tail).dropWhile isDigit = 0x2F :: (rest ++ tail) := by
      rw [List.append_assoc, List.dropWhile_append_of_pos hds]
      simp [List.dropWhile_cons_of_neg hslash]
    have htw2 : (rest ++ tail).takeWhile isNonSpace = rest := by
      rw [List.takeWhile_append_of_pos hrest]
      cases tail with
      | nil => simp
      | cons c u =>
        have := htail c u rfl
        simp [List.takeWhile, isNonSpace, this]
    refine ⟨ds ++ 0x2F :: rest ++ tail, rest ++ tail, rest.length, by simp, by rw [htw]; exact hlen,
      hdw, ?_, ?_⟩
    · refine (repGreedy_last_some_iff _ _ _ _).2 ⟨?_, by rw [htw2]⟩
      rw [htw2]
      cases rest with
      | nil => exact absurd rfl hne
      | cons _ _ => simp
    · rw [htw]; simp; omega

theorem doiPattern_match_iff (t : List Nat) (n : Nat) :
    matchAtoms doiPattern.atoms t = some n ↔ DoiForm t ∧ n = t.length := by
  have hm : matchAtoms doiPattern.atoms =
      doiCore.foldr matchAtom (fun s => if s.isEmpty then some 0 else none) := by
    have h := matchAtoms_append doiCore [.eos]
    simpa [matchAtoms, matchAtom, doiPattern] using h
  have hblock : ∀ x u, isNonSpace x = true →
      (fun s : List Nat => if s.isEmpty then some 0 else none) (x :: u) = none := by
    intro x u _; simp
  rw [hm, doiCore_some_iff]
  constructor
  · rintro ⟨s3, r, j, rfl, hlen, hr, hj, rfl⟩
    obtain ⟨h1, m, hm0, rfl⟩ := (repGreedy_blocked_some_iff _ _ hblock _ _ _).1 hj
    have hs3 := List.takeWhile_append_dropWhile isDigit s3
    have hrr := List.takeWhile_append_dropWhile isNonSpace r
    have hnil : r.dropWhile isNonSpace = [] := by
      by_contra hne
      simp [hne] at hm0
    have hm1 : m = 0 := by simpa [hnil] using hm0.symm
    rw [hnil, List.append_nil] at hrr
    have hall : ∀ c ∈ r, isNonSpace c = true := List.takeWhile_eq_self_iff.1 hrr
    constructor
    · refine (doiForm_iff _).2 ⟨s3.takeWhile isDigit, r, ?_, hlen,
        fun d hd => List.mem_takeWhile_imp hd, ?_, hall⟩
      · rw [← hr, hs3]
      · intro h0; rw [h0] at h1; simp at h1
    · rw [hrr, hm1]
      have hl : s3.length = (s3.takeWhile isDigit).length + (r.length + 1) := by
        conv_lhs => rw [← hs3, hr]
        simp
      simp [hl]; omega
  · rintro ⟨hform, rfl⟩
    obtain ⟨ds, rest, rfl, hlen, hds, hne, hrest⟩ := (doiForm_iff _).1 hform
    have hslash : ¬ (isDigit 0x2F = true) := by decide
    have htw : (ds ++ 0x2F :: rest).takeWhile isDigit = ds := by
      rw [List.takeWhile_append_of_pos hds]
      simp [List.takeWhile_cons_of_neg hslash]
    have hdw : (ds ++ 0x2F :: rest).dropWhile isDigit = 0x2F :: rest := by
      rw [List.dropWhile_append_of_pos hds]
      simp [List.dropWhile_cons_of_neg hslash]
    have htw2 : rest.takeWhile isNonSpace = rest := List.takeWhile_eq_self_iff.2 hrest
    have hdw2 : rest.dropWhile isNonSpace = [] := List.dropWhile_eq_nil_iff.2 hrest
    refine ⟨ds ++ 0x2F :: rest, rest, rest.length, rfl, by rw [htw]; exact hlen, hdw, ?_, ?_⟩
    · refine (repGreedy_blocked_some_iff _ _ hblock _ _ _).2 ⟨?_, 0, by simp [hdw2], by simp [htw2]⟩
      rw [htw2]
      cases rest with
      | nil => exact absurd rfl hne
      | cons _ _ => simp
    · rw [htw]; simp; omega

theorem regexExec_bos (re : Regex) (hb : re.bos = true) (s : List Nat) :
    regexExec re s = (matchAtoms re.atoms s).map (fun n => (0, n)) := by
  cases s with
  | nil => rfl
  | cons x s =>
    simp only [regexExec, hb, if_true]
    cases matchAtoms re.atoms (x :: s) <;> rfl

theorem regexExec_some (re : Regex) (hb : re.bos = false) :
    ∀ (s : List Nat) (i n : Nat), regexExec re s = some (i, n) →
      matchAtoms re.atoms (s.drop i) = some n ∧ i ≤ s.length ∧
        ∀ j, j < i → matchAtoms re.atoms (s.drop j) = none := by
  intro s
  induction s with
  | nil =>
    intro i n h
    simp only [regexExec, Option.map_eq_some', Prod.mk.injEq] at h
    obtain ⟨a, ha, rfl, rfl⟩ := h
    simp [ha]
  | cons x s ih =>
    intro i n h
    simp only [regexExec, hb] at h
    cases hm : matchAtoms re.atoms (x :: s) with
    | some n0 =>
      simp only [hm, Option.some.injEq, Prod.mk.injEq] at h
      obtain ⟨rfl, rfl⟩ := h
      simp [hm]
    | none =>
      simp only [hm, Bool.false_eq_true, if_false, Option.map_eq_some', Prod.mk.injEq,
        Prod.exists] at h
      obtain ⟨i0, n0, h0, rfl, rfl⟩ := h
      obtain ⟨h1, h2, h3⟩ := ih i0 n0 h0
      refine ⟨by simpa using h1, by simp; omega, ?_⟩
      intro j hj
      cases j with
      | zero => simpa using hm
      | succ j => simpa using h3 j (by omega)

theorem regexExec_none (re : Regex) (hb : re.bos = false) :
    ∀ (s : List Nat), regexExec re s = none →
      ∀ j, matchAtoms re.atoms (s.drop j) = none := by
  intro s
  induction s with
  | nil =>
    intro h j
    simpa [regexExec] using h
  | cons x s ih =>
    intro h j
    simp only [regexExec, hb] at h
    cases hm : matchAtoms re.atoms (x :: s) with
    | some n0 => simp [hm] at h
    | none =>
      simp only [hm, Bool.false_eq_true, if_false, Option.map_eq_none'] at h
      cases j with
      | zero => simpa using hm
      | succ j => simpa using ih h j

theorem doiForm_ne_nil (m : JsString) (h : DoiForm m) : m ≠ [] := by
  obtain ⟨ds, rest, rfl, -⟩ := (doiForm_iff _).1 h
  simp

theorem trim_trim (s : JsString) : trim (trim s) = trim s := by
  unfold trim
  have hpre : List.rdropWhile isJsSpace (List.dropWhile isJsSpace s) <+:
      List.dropWhile isJsSpace s := List.rdropWhile_prefix _ _
  have h1 : List.dropWhile isJsSpace (List.rdropWhile isJsSpace (List.dropWhile isJsSpace s)) =
      List.rdropWhile isJsSpace (List.dropWhile isJsSpace s) := by
    obtain ⟨u, hu⟩ := hpre
    cases ht : List.rdropWhile isJsSpace (List.dropWhile isJsSpace s) with
    | nil => rfl
    | cons c t =>
      rw [ht] at hu
      have hc := dropWhile_head_false isJsSpace s c (t ++ u) (by simpa using hu.symm)
      simp [List.dropWhile, hc]
  rw [h1, List.rdropWhile_idempotent]

theorem isDOI_eq_true_iff (s : JsString) : isDOI s = true ↔ DoiForm (trim s) := by
  unfold isDOI regexTest
  rw [regexExec_bos doiPattern rfl, Option.isSome_iff_exists]
  constructor
  · rintro ⟨a, ha⟩
    obtain ⟨n, hn, -⟩ := Option.map_eq_some'.1 ha
    exact ((doiPattern_match_iff _ _).1 hn).1
  · intro h
    exact ⟨_, Option.map_eq_some'.2 ⟨_, (doiPattern_match_iff _ _).2 ⟨h, rfl⟩, rfl⟩⟩

theorem doiForm_append (m w : JsString) (h : DoiForm m) (hw : ∀ c ∈ w, isJsSpace c = false) :
    DoiForm (m ++ w) := by
  obtain ⟨ds, rest, rfl, hlen, hds, hne, hrest⟩ := h
  refine ⟨ds, rest ++ w, by simp, hlen, hds, by simp [hne], ?_⟩
  intro c hc
  rcases List.mem_append.1 hc with hc | hc
  · exact hrest c hc
  · exact hw c hc

theorem doiCore_match_of_start (m post : JsString) (h : DoiForm m) :
    ∃ n, matchAtoms doiCore (m ++ post) = some n := by
  refine ⟨_, (doiCore_match_iff _ _).2
    ⟨m ++ post.takeWhile isNonSpace, post.dropWhile isNonSpace, ?_, ?_, rfl, ?_, ?_⟩⟩
  · simp
  · refine doiForm_append _ _ h ?_
    intro c hc
    simpa [isNonSpace] using List.mem_takeWhile_imp hc
  · intro c u hcu
    simpa [isNonSpace] using dropWhile_head_false _ _ _ _ hcu
  · intro c hc
    rcases List.mem_append.1 hc with hc | hc
    · obtain ⟨ds, rest, rfl, hlen, hds, hne, hrest⟩ := (doiForm_iff _).1 h
      simp only [List.mem_cons, List.mem_append] at hc
      rcases hc with rfl | rfl | rfl | hc | rfl | hc
      · decide
      · decide
      · decide
      · have := hds c hc
        simp only [isDigit, Bool.and_eq_true, decide_eq_true_eq] at this
        simp [isJsSpace]; omega
      · decide
      · simpa [isNonSpace] using hrest c hc
    · simpa [isNonSpace] using List.mem_takeWhile_imp hc

/-- C2: for every string `s`, `isDOI s` holds exactly when `s` with surrounding white space
trimmed is `10.`, four or more decimal digits, a slash and one or more code units that are
not white space, from start to end; and for every such input `handleSearch` takes the
DOI-lookup branch with the trimmed query, whatever the selected search type. -/
theorem isDOI_spec (s searchType : JsString) :
    (isDOI s = true ↔ DoiForm (trim s)) ∧
      (DoiForm (trim s) → handleSearch s searchType = .byDOI (trim s)) := by
  refine ⟨isDOI_eq_true_iff s, ?_⟩
  intro h
  have h1 : isDOI (trim s) = true := by
    rw [isDOI_eq_true_iff, trim_trim]; exact h
  have h2 : (trim s).isEmpty = false := by
    have := doiForm_ne_nil _ h
    cases hts : trim s with
    | nil => exact absurd hts this
    | cons _ _ => rfl
  simp [handleSearch, h1, h2]

/-- An input with surrounding blanks that has the DOI form once trimmed, and its branch. -/
theorem isDOI_spec_witness :
    DoiForm (trim (js " 10.1038/nature12373 ")) ∧
      handleSearch (js " 10.1038/nature12373 ") (js "all") = .byDOI (js "10.1038/nature12373") :=
  ⟨(isDOI_spec (js " 10.1038/nature12373 ") (js "all")).1.1 (by decide),
   (isDOI_spec (js " 10.1038/nature12373 ") (js "all")).2
     ((isDOI_spec (js " 10.1038/nature12373 ") (js "all")).1.1 (by decide))⟩

/-- C3: for every string `s`, either `s` contains a text of the DOI form, and then
`extractDOI s` is such a text `m` of `s = pre ++ m ++ post` that starts at the leftmost
position at which a DOI form starts and runs to the next white space or the end of `s`; or
`s` contains no text of the DOI form, and then `extractDOI s = s`. -/
theorem extractDOI_spec (s : JsString) :
    (∃ pre m post, s = pre ++ m ++ post ∧ DoiForm m ∧ extractDOI s = m ∧
        (∀ c u, post = c :: u → isJsSpace c = true) ∧
        (∀ pre2 m2 post2, s = pre2 ++ m2 ++ post2 → DoiForm m2 → pre.length ≤ pre2.length)) ∨
    ((¬ ∃ pre m post, s = pre ++ m ++ post ∧ DoiForm m) ∧ extractDOI s = s) := by
  cases h : regexExec doiSearchPattern s with
  | none =>
    right
    constructor
    · rintro ⟨pre, m, post, rfl, hm⟩
      have h0 := regexExec_none doiSearchPattern rfl _ h pre.length
      obtain ⟨n, hn⟩ := doiCore_match_of_start m post hm
      simp only [List.append_assoc, List.drop_left] at h0
      rw [show doiSearchPattern.atoms = doiCore from rfl, hn] at h0
      exact absurd h0 (by simp)
    · simp [extractDOI, regexMatch0, h]
  | some r =>
    left
    obtain ⟨i, n⟩ := r
    obtain ⟨h1, h2, h3⟩ := regexExec_some doiSearchPattern rfl s i n h
    obtain ⟨m, tail, hmt, hform, rfl, htail, -⟩ := (doiCore_match_iff _ _).1 h1
    refine ⟨s.take i, m, tail, ?_, hform, ?_, htail, ?_⟩
    · rw [List.append_assoc, ← hmt, List.take_append_drop]
    · simp [extractDOI, regexMatch0, h, hmt]
    · intro pre2 m2 post2 hs hm2
      by_contra hlt
      have hlen : (s.take i).length = i := by simp [h2]
      have h0 := h3 pre2.length (by omega)
      obtain ⟨n, hn⟩ := doiCore_match_of_start m2 post2 hm2
      rw [hs] at h0
      simp only [List.append_assoc, List.drop_left] at h0
      rw [show doiSearchPattern.atoms = doiCore from rfl, hn] at h0
      exact absurd h0 (by simp)

theorem formatCrossRefResult_ok_of_year (item : Item) (y : YearVal) (h : yearOf item = .ok y) :
    ∃ r, formatCrossRefResult item = .ok r ∧ r.year = y ∧
      r.title = (match item.title with
        | some titles => titles[0]?
        | none => some (js "Untitled")) ∧
      r.authors = formatAuthors item.author ∧
      r.url = jsOr item.URL
        (if truthyStr item.DOI then js "https://doi.org/" ++ item.DOI.getD [] else []) := by
  simp only [formatCrossRefResult, h]
  refine ⟨_, rfl, rfl, ?_, rfl, rfl⟩
  cases item.title <;> rfl

theorem formatCrossRefResult_year_of_ok (item : Item) (r : Record)
    (h : formatCrossRefResult item = .ok r) : yearOf item = .ok r.year := by
  unfold formatCrossRefResult at h
  cases hy : yearOf item with
  | error e => simp [hy] at h
  | ok y =>
    simp only [hy, Except.ok.injEq] at h
    rw [← h]

/-- C1 (code defect): `formatCrossRefResult` is not total.  A `created` object without
`date-parts`, and a `created` or `published` object whose `date-parts` is the empty array,
make it throw a `TypeError` instead of returning a record; only the `published` branch guards
a missing `date-parts` (there a record is returned). -/
theorem formatCrossRefResult_throws :
    formatCrossRefResult { emptyItem with created := some ⟨none⟩ } = .error .typeError ∧
    formatCrossRefResult { emptyItem with created := some ⟨some []⟩ } = .error .typeError ∧
    formatCrossRefResult { emptyItem with published := some ⟨some []⟩ } = .error .typeError ∧
    (∃ r, formatCrossRefResult { emptyItem with published := some ⟨none⟩ } = .ok r) :=
  ⟨rfl, rfl, rfl, _, rfl⟩

/-- C5 (code defect): for the item whose `title` is the empty array (and which has no DOI, no
URL and no authors) the returned record has the title `undefined`, not the placeholder
`Untitled`; the authors string is the placeholder `Unknown authors`. -/
theorem formatCrossRefResult_title_undefined :
    ∃ r, formatCrossRefResult { emptyItem with title := some [] } = .ok r ∧ r.title = none ∧
      r.authors = js "Unknown authors" :=
  ⟨_, rfl, rfl, rfl⟩


theorem truthyStr_eq_true_iff (x : Option JsString) :
    truthyStr x = true ↔ ∃ v, x = some v ∧ v ≠ [] := by
  rcases x with _ | _ | ⟨c, v⟩ <;> simp [truthyStr]

theorem truthyStr_eq_false_iff (x : Option JsString) :
    truthyStr x = false ↔ (x = none ∨ x = some []) := by
  rcases x with _ | _ | ⟨c, v⟩ <;> simp [truthyStr]

theorem intercalate_cons_cons (sep x y : JsString) (ys : List JsString) :
    List.intercalate sep (x :: y :: ys) = x ++ sep ++ List.intercalate sep (y :: ys) := by
  simp [List.intercalate, List.intersperse]

theorem jsJoinLoop_false (sep : JsString) :
    ∀ (xs : List JsString) (r x : JsString),
      jsJoinLoop sep r false (x :: xs) = r ++ sep ++ List.intercalate sep (x :: xs) := by
  intro xs
  induction xs with
  | nil => intro r x; simp [jsJoinLoop, List.intercalate]
  | cons y ys ih =>
    intro r x
    rw [intercalate_cons_cons, jsJoinLoop]
    simp only [Bool.false_eq_true, if_false]
    rw [ih]
    simp [List.append_assoc]

theorem jsJoin_eq_intercalate (sep : JsString) (xs : List JsString) :
    jsJoin sep xs = List.intercalate sep xs := by
  rcases xs with _ | ⟨x, _ | ⟨y, ys⟩⟩
  · simp [jsJoin, jsJoinLoop, List.intercalate]
  · simp [jsJoin, jsJoinLoop, List.intercalate]
  · rw [intercalate_cons_cons, jsJoin, jsJoinLoop]
    simp only [if_true, List.nil_append]
    rw [jsJoinLoop_false]

/-- C4: `formatAuthors` returns exactly `Unknown authors` when the list is absent or empty;
otherwise the `; `-join of the formatted first five entries, followed by the element
`et al.` exactly when there are more than five entries.  An entry with a non-empty family
name and a non-empty given name is `family, G.` with `G` the first code unit of the given
name; otherwise it is the non-empty display name, else the non-empty family name, else
`Unknown`. -/
theorem formatAuthors_spec (authors : Option (List Author)) :
    ((authors = none ∨ authors = some []) → formatAuthors authors = js "Unknown authors") ∧
    (∀ l, authors = some l → l ≠ [] →
      formatAuthors authors = List.intercalate (js "; ")
        ((l.take 5).map formatAuthor ++ if 5 < l.length then [js "et al."] else [])) ∧
    (∀ a : Author,
      (∀ f g0 g, a.family = some f → f ≠ [] → a.given = some (g0 :: g) →
        formatAuthor a = f ++ js ", " ++ [g0] ++ js ".") ∧
      ((a.family = none ∨ a.family = some [] ∨ a.given = none ∨ a.given = some []) →
        (∀ n, a.name = some n → n ≠ [] → formatAuthor a = n) ∧
        ((a.name = none ∨ a.name = some []) →
          (∀ f, a.family = some f → f ≠ [] → formatAuthor a = f) ∧
          ((a.family = none ∨ a.family = some []) → formatAuthor a = js "Unknown")))) := by
  refine ⟨?_, ?_, ?_⟩
  · rintro (rfl | rfl) <;> rfl
  · rintro l rfl hl
    have h0 : l.length ≠ 0 := by
      cases l with
      | nil => exact absurd rfl hl
      | cons _ _ => simp
    simp only [formatAuthors, h0, if_false, jsJoin_eq_intercalate]
    by_cases h5 : 5 < l.length
    · simp [h5]
    · simp [h5]
  · intro a
    refine ⟨?_, ?_⟩
    · intro f g0 g hf hfne hg
      have h1 : truthyStr a.family = true := (truthyStr_eq_true_iff _).2 ⟨f, hf, hfne⟩
      have h2 : truthyStr a.given = true := (truthyStr_eq_true_iff _).2 ⟨_, hg, by simp⟩
      simp only [formatAuthor, h1, h2, Bool.and_self, if_true]
      simp [hf, hg, charAt0]
    · intro hno
      have h1 : (truthyStr a.family && truthyStr a.given) = false := by
        rcases hno with h | h | h | h <;> simp [h, truthyStr]
      refine ⟨?_, ?_⟩
      · intro n hn hnne
        have h2 : truthyStr a.name = true := (truthyStr_eq_true_iff _).2 ⟨n, hn, hnne⟩
        unfold formatAuthor
        rw [h1]
        simp only [jsOr, h2, if_true, Bool.false_eq_true, if_false]
        simp [hn]
      · intro hname
        have h2 : truthyStr a.name = false := (truthyStr_eq_false_iff _).2 hname
        refine ⟨?_, ?_⟩
        · intro f hf hfne
          have h3 : truthyStr a.family = true := (truthyStr_eq_true_iff _).2 ⟨f, hf, hfne⟩
          unfold formatAuthor
          rw [h1]
          simp only [jsOr, h2, h3, if_true, Bool.false_eq_true, if_false]
          simp [hf]
        · intro hfam
          have h3 : truthyStr a.family = false := (truthyStr_eq_false_iff _).2 hfam
          unfold formatAuthor
          rw [h1]
          simp [jsOr, h2, h3]

/-- Six authors give five formatted entries and the element `et al.`. -/
theorem formatAuthors_spec_witness :
    formatAuthors (some (List.replicate 6 ⟨some (js "Doe"), some (js "Jane"), none⟩)) =
      js "Doe, J.; Doe, J.; Doe, J.; Doe, J.; Doe, J.; et al." :=
  ((formatAuthors_spec (some (List.replicate 6 ⟨some (js "Doe"), some (js "Jane"), none⟩))).2.1
    _ rfl (by decide)).trans (by decide)

/-- C6 as stated fails: it is not true that whenever `published` supplies no first date
component and `created` supplies a year, the record carries the created year (the item with
`published = {}` and `created = {date-parts: [[2020]]}` gets the empty year). -/
theorem year_created_fallback_fails :
    ¬ ∀ (item : Item) (y : Int), firstDatePart item.published = none →
        firstDatePart item.created = some y →
        ∃ r, formatCrossRefResult item = .ok r ∧ r.year = .num y := by
  intro h
  obtain ⟨r, hr, hy⟩ :=
    h { emptyItem with published := some ⟨none⟩, created := some ⟨some [[2020]]⟩ } 2020 rfl rfl
  have h2 := formatCrossRefResult_year_of_ok _ _ hr
  rw [hy] at h2
  exact absurd h2 (by decide)

/-- C6 as amended: the year is the first date component of `published` when that component
is present; when the `published` object is absent and `created` supplies a year, it is the
created year; when `published` is present without `date-parts` the year is the empty string,
whatever `created` holds; when both objects are absent the year is the empty string. -/
theorem year_resolution (item : Item) :
    (∀ y, firstDatePart item.published = some y →
      ∃ r, formatCrossRefResult item = .ok r ∧ r.year = .num y) ∧
    (item.published = none → ∀ y, firstDatePart item.created = some y →
      ∃ r, formatCrossRefResult item = .ok r ∧ r.year = .num y) ∧
    (item.published = some ⟨none⟩ →
      ∃ r, formatCrossRefResult item = .ok r ∧ r.year = .empty) ∧
    (item.published = none → item.created = none →
      ∃ r, formatCrossRefResult item = .ok r ∧ r.year = .empty) := by
  have key : ∀ y, yearOf item = .ok y → ∃ r, formatCrossRefResult item = .ok r ∧ r.year = y := by
    intro y hy
    obtain ⟨r, hr, hyr, -⟩ := formatCrossRefResult_ok_of_year item y hy
    exact ⟨r, hr, hyr⟩
  refine ⟨?_, ?_, ?_, ?_⟩
  · intro y hy
    apply key
    unfold firstDatePart at hy
    split at hy
    · rename_i y0 _ _ hp
      simp only [Option.some.injEq] at hy
      simp [yearOf, hp, dateParts00, hy]
    · exact absurd hy (by simp)
  · intro hp y hy
    apply key
    unfold firstDatePart at hy
    split at hy
    · rename_i y0 _ _ hc
      simp only [Option.some.injEq] at hy
      simp [yearOf, hp, hc, dateParts00, hy]
    · exact absurd hy (by simp)
  · intro hp
    apply key
    simp [yearOf, hp]
  · intro hp hc
    apply key
    simp [yearOf, hp, hc]

/-- The four cases of the year on concrete items. -/
theorem year_resolution_witness :
    (∃ r, formatCrossRefResult
        { emptyItem with published := some ⟨some [[2013, 8]]⟩, created := some ⟨some [[2014]]⟩ } =
          .ok r ∧ r.year = .num 2013) ∧
    (∃ r, formatCrossRefResult { emptyItem with created := some ⟨some [[2014]]⟩ } = .ok r ∧
        r.year = .num 2014) ∧
    (∃ r, formatCrossRefResult
        { emptyItem with published := some ⟨none⟩, created := some ⟨some [[2014]]⟩ } = .ok r ∧
          r.year = .empty) ∧
    (∃ r, formatCrossRefResult emptyItem = .ok r ∧ r.year = .empty) :=
  ⟨(year_resolution _).1 2013 rfl, (year_resolution _).2.1 rfl 2014 rfl,
   (year_resolution _).2.2.1 rfl, (year_resolution _).2.2.2 rfl rfl⟩

/-- C8: in every record returned by `formatCrossRefResult`, the url is the URL of the item
when the item supplies a non-empty one; when the URL is missing or empty and the item has a
non-empty DOI `d`, it is exactly `https://doi.org/` followed by `d`; when the item supplies
neither, it is empty. -/
theorem url_fallback (item : Item) (r : Record) (h : formatCrossRefResult item = .ok r) :
    (∀ u, item.URL = some u → u ≠ [] → r.url = u) ∧
    ((item.URL = none ∨ item.URL = some []) →
      (∀ d, item.DOI = some d → d ≠ [] → r.url = js "https://doi.org/" ++ d) ∧
      ((item.DOI = none ∨ item.DOI = some []) → r.url = [])) := by
  obtain ⟨r', hr', -, -, -, hurl⟩ :=
    formatCrossRefResult_ok_of_year item r.year (formatCrossRefResult_year_of_ok item r h)
  rw [h] at hr'
  simp only [Except.ok.injEq] at hr'
  subst hr'
  rw [hurl]
  refine ⟨?_, ?_⟩
  · intro u hu hne
    have h1 : truthyStr item.URL = true := (truthyStr_eq_true_iff _).2 ⟨u, hu, hne⟩
    simp only [jsOr, h1, if_true]
    simp [hu]
  · intro hno
    have h1 : truthyStr item.URL = false := (truthyStr_eq_false_iff _).2 hno
    refine ⟨?_, ?_⟩
    · intro d hd hne
      have h2 : truthyStr item.DOI = true := (truthyStr_eq_true_iff _).2 ⟨d, hd, hne⟩
      simp only [jsOr, h1, h2, if_true, Bool.false_eq_true, if_false]
      simp [hd]
    · intro hnd
      have h2 : truthyStr item.DOI = false := (truthyStr_eq_false_iff _).2 hnd
      simp only [jsOr, h1, h2, Bool.false_eq_true, if_false]

/-- The DOI `10.1/x` without a URL gives `https://doi.org/10.1/x`. -/
theorem url_fallback_witness :
    ∃ r, formatCrossRefResult { emptyItem with DOI := some (js "10.1/x") } = .ok r ∧
      r.url = js "https://doi.org/10.1/x" :=
  ⟨_, rfl, ((url_fallback { emptyItem with DOI := some (js "10.1/x") } _ rfl).2
    (Or.inl rfl)).1 (js "10.1/x") rfl (by decide)⟩

/-- C9: for a non-empty DOI and a parsed response, `checkUnpaywall` announces and opens
exactly the PDF link when `is_oa` is true and `best_oa_location` supplies a non-empty
`url_for_pdf`, whether or not a landing-page link is present; it gives the landing-page
outcome for `u` exactly when `is_oa` is true, no PDF link is supplied and the landing-page
link is the non-empty `u`; every other response gives the not-found message. -/
theorem checkUnpaywall_spec (doi : JsString) (hdoi : doi ≠ []) (data : UnpaywallData) :
    (∀ loc pdf, data.is_oa = some true → data.best_oa_location = some loc →
      loc.url_for_pdf = some pdf → pdf ≠ [] →
      checkUnpaywall doi (.ok data) =
        [.toast .checking, .toast .foundPdf, .windowOpen pdf]) ∧
    (∀ u, checkUnpaywall doi (.ok data) =
        [.toast .checking, .toast .foundPage, .windowOpen u] ↔
      (data.is_oa = some true ∧ ∃ loc, data.best_oa_location = some loc ∧
        (loc.url_for_pdf = none ∨ loc.url_for_pdf = some []) ∧ loc.url = some u ∧ u ≠ [])) ∧
    ((¬ (data.is_oa = some true ∧ ∃ loc, data.best_oa_location = some loc ∧
        ((∃ pdf, loc.url_for_pdf = some pdf ∧ pdf ≠ []) ∨ ∃ u, loc.url = some u ∧ u ≠ []))) →
      checkUnpaywall doi (.ok data) = [.toast .checking, .toast .notFound]) := by
  obtain ⟨oa, best⟩ := data
  have hd : doi.isEmpty = false := by
    cases doi with
    | nil => exact absurd rfl hdoi
    | cons _ _ => rfl
  rcases oa with _ | _ | _ <;> rcases best with _ | ⟨_ | _ | ⟨c, v⟩, _ | _ | ⟨c', v'⟩⟩ <;>
    simp [checkUnpaywall, hd, truthyStr] <;>
    (intro loc pdf hloc hpdf; subst hloc; simp at hpdf; try (subst hpdf; simp))

/-- A response with both links: the PDF link is opened. -/
theorem checkUnpaywall_spec_witness :
    checkUnpaywall (js "10.1/x")
        (.ok ⟨some true, some ⟨some (js "https://a/b.pdf"), some (js "https://a/b")⟩⟩) =
      [.toast .checking, .toast .foundPdf, .windowOpen (js "https://a/b.pdf")] :=
  (checkUnpaywall_spec (js "10.1/x") (by decide) _).1 _ _ rfl rfl rfl (by decide)

theorem replaceAllAux_skip (re : Regex) (rep : JsString) :
    ∀ (s : List Nat) (n : Nat), replaceAllAux re rep n s = replaceAllAux re rep 0 (s.drop n) := by
  intro s
  induction s with
  | nil => intro n; simp [replaceAllAux]
  | cons x s ih =>
    intro n
    cases n with
    | zero => rfl
    | succ n => rw [replaceAllAux, ih n]; rfl

theorem matchAtoms_lit (pat : JsString) :
    ∀ s : List Nat, matchAtoms (litAtoms pat) s =
      if pat.isPrefixOf s = true then some pat.length else none := by
  induction pat with
  | nil => intro s; simp [litAtoms, matchAtoms]
  | cons p pat ih =>
    intro s
    cases s with
    | nil => simp [litAtoms, matchAtoms, matchAtom]
    | cons x s =>
      have h := ih s
      simp only [litAtoms] at h
      simp only [litAtoms, List.map_cons, matchAtoms, matchAtom, h, List.isPrefixOf,
        List.length_cons]
      by_cases hx : x = p
      · subst hx
        by_cases hp : pat.isPrefixOf s = true <;> simp [hp]
      · have hx' : ¬ p = x := fun e => hx e.symm
        simp [hx, hx']

theorem replaceEvery_nil (pat rep : JsString) : replaceEvery pat rep [] = [] := by
  rw [replaceEvery.eq_def]
  cases pat with
  | nil => simp
  | cons p pat => simp [List.isPrefixOf]

theorem replaceEvery_hit (pat rep s : JsString) (hpat : pat ≠ [])
    (h : pat.isPrefixOf s = true) :
    replaceEvery pat rep s = rep ++ replaceEvery pat rep (s.drop pat.length) := by
  rw [replaceEvery.eq_def]
  simp [hpat, h]

theorem replaceEvery_cons (pat rep : JsString) (c : Nat) (s : JsString)
    (h : pat.isPrefixOf (c :: s) = false) :
    replaceEvery pat rep (c :: s) = c :: replaceEvery pat rep s := by
  rw [replaceEvery.eq_def]
  simp [h]

theorem replaceAll_lit (pat rep : JsString) (hpat : pat ≠ []) :
    ∀ (n : Nat) (s : JsString), s.length ≤ n →
      replaceAll { bos := false, atoms := litAtoms pat } rep s = replaceEvery pat rep s := by
  intro n
  induction n with
  | zero =>
    intro s hs
    have : s = [] := List.length_eq_zero.1 (by omega)
    subst this
    rw [replaceEvery_nil]
    cases pat with
    | nil => exact absurd rfl hpat
    | cons p pat => simp [replaceAll, replaceAllAux, litAtoms, matchAtoms, matchAtom]
  | succ n ih =>
    intro s hs
    cases s with
    | nil =>
      rw [replaceEvery_nil]
      cases pat with
      | nil => exact absurd rfl hpat
      | cons p pat => simp [replaceAll, replaceAllAux, litAtoms, matchAtoms, matchAtom]
    | cons x s =>
      simp only [List.length_cons] at hs
      simp only [replaceAll, replaceAllAux, matchAtoms_lit]
      by_cases hp : pat.isPrefixOf (x :: s) = true
      · rw [replaceEvery_hit _ _ _ hpat hp]
        obtain ⟨m, hm⟩ : ∃ m, pat.length = m + 1 := by
          cases pat with
          | nil => exact absurd rfl hpat
          | cons p pat => exact ⟨pat.length, rfl⟩
        simp only [hp, if_true, hm]
        rw [replaceAllAux_skip]
        have := ih (s.drop m) (by simp; omega)
        simp only [replaceAll] at this
        rw [this]
        rfl
      · have hp' : pat.isPrefixOf (x :: s) = false := Bool.eq_false_iff.2 hp
        rw [replaceEvery_cons _ _ _ _ hp']
        simp only [hp', Bool.false_eq_true, if_false]
        have := ih s (by omega)
        simp only [replaceAll] at this
        rw [this]


theorem drop_length_takeWhile (p : Nat → Bool) (s : List Nat) :
    s.drop (s.takeWhile p).length = s.dropWhile p := by
  have h : s.drop (s.takeWhile p).length =
      (s.takeWhile p ++ s.dropWhile p).drop (s.takeWhile p).length := by
    rw [List.takeWhile_append_dropWhile]
  rw [h, List.drop_left]

theorem mem_gt_iff (s : List Nat) : 0x3E ∈ s ↔ s.dropWhile isNotGt ≠ [] := by
  rw [Ne, List.dropWhile_eq_nil_iff]
  constructor
  · intro h hall
    have := hall _ h
    simp [isNotGt] at this
  · intro h
    by_contra hmem
    apply h
    intro x hx
    have : x ≠ 0x3E := fun e => hmem (e ▸ hx)
    simp [isNotGt, this]

theorem matchAtom_chr_cons (c : Nat) (k : List Nat → Option Nat) (x : Nat) (s : List Nat) :
    matchAtom (.chr c) k (x :: s) = if x = c then (k s).map (· + 1) else none := rfl

theorem tagPattern_match (x : Nat) (s : List Nat) :
    matchAtoms tagPattern.atoms (x :: s) =
      if x = 0x3C ∧ 0x3E ∈ s then some ((s.takeWhile isNotGt).length + 1 + 1) else none := by
  have hblock : ∀ y u, isNotGt y = true →
      matchAtom (.chr 0x3E) (fun _ => some 0) (y :: u) = none := by
    intro y u hy
    have : y ≠ 0x3E := by simpa [isNotGt] using hy
    simp [matchAtom, this]
  have hfold : matchAtoms tagPattern.atoms =
      matchAtom (.chr 0x3C) (repGreedy isNotGt (matchAtom (.chr 0x3E) (fun _ => some 0)) 0) := rfl
  rw [hfold]
  by_cases hx : x = 0x3C
  · subst hx
    rw [matchAtom_chr_cons, repGreedy_blocked _ _ hblock s 0 (Nat.zero_le _)]
    simp only [if_true, true_and]
    by_cases hm : 0x3E ∈ s
    · have hne := (mem_gt_iff s).1 hm
      obtain ⟨y, u, hyu⟩ := List.exists_cons_of_ne_nil hne
      have hy : y = 0x3E := by
        have := dropWhile_head_false _ _ _ _ hyu
        simpa [isNotGt] using this
      subst hy
      simp [hyu, hm, matchAtom]
      omega
    · have hnil : s.dropWhile isNotGt = [] := by
        by_contra hne
        exact hm ((mem_gt_iff s).2 hne)
      simp [hnil, hm, matchAtom]
  · simp [matchAtom_chr_cons, hx]

theorem stripSpans_true (s : JsString) :
    stripSpans true s = stripSpans false ((s.dropWhile isNotGt).drop 1) := by
  induction s with
  | nil => rfl
  | cons c s ih =>
    by_cases hc : c = 0x3E
    · subst hc
      simp [stripSpans, List.dropWhile, isNotGt]
    · have : isNotGt c = true := by simp [isNotGt, hc]
      simp [stripSpans, hc, List.dropWhile, this, ih]

theorem replaceAll_tag :
    ∀ (n : Nat) (s : JsString), s.length ≤ n →
      replaceAll tagPattern [] s = stripSpans false s := by
  intro n
  induction n with
  | zero =>
    intro s hs
    have : s = [] := List.length_eq_zero.1 (by omega)
    subst this
    rfl
  | succ n ih =>
    intro s hs
    cases s with
    | nil => rfl
    | cons x s =>
      simp only [List.length_cons] at hs
      simp only [replaceAll, replaceAllAux, tagPattern_match, stripSpans]
      by_cases h : x = 0x3C ∧ 0x3E ∈ s
      · simp only [h, and_self, if_true, List.nil_append]
        have hdrop : s.drop ((s.takeWhile isNotGt).length + 1) =
            (s.dropWhile isNotGt).drop 1 := by
          rw [← drop_length_takeWhile, List.drop_drop]
        rw [replaceAllAux_skip, stripSpans_true, hdrop]
        have := ih ((s.dropWhile isNotGt).drop 1) (by
          have := (List.dropWhile_sublist isNotGt (l := s)).length_le
          simp; omega)
        simpa [replaceAll] using this
      · simp only [h, if_false]
        have := ih s (by omega)
        simp only [replaceAll] at this
        rw [this]

theorem cleanAbstract_eq_stages (s : JsString) :
    cleanAbstract s =
      trim (replaceEvery (js "&amp;") (js "&") (replaceEvery (js "&gt;") (js ">")
        (replaceEvery (js "&lt;") (js "<") (stripSpans false s)))) := by
  have h1 : ltPattern = { bos := false, atoms := litAtoms (js "&lt;") } := rfl
  have h2 : gtPattern = { bos := false, atoms := litAtoms (js "&gt;") } := rfl
  have h3 : ampPattern = { bos := false, atoms := litAtoms (js "&amp;") } := rfl
  unfold cleanAbstract
  rw [replaceAll_tag _ _ (le_refl _), h1, replaceAll_lit _ _ (by decide) _ _ (le_refl _),
    h2, replaceAll_lit _ _ (by decide) _ _ (le_refl _),
    h3, replaceAll_lit _ _ (by decide) _ _ (le_refl _)]

/-- C7: for every abstract, `cleanAbstract` (the four `replace` calls of the source run by
the pattern matcher, then `trim`) is the cleaning of the specification: every span from a
`<` to the next `>` removed, then every `&lt;` replaced by `<`, then every `&gt;` by `>`, then
every `&amp;` by `&`, nothing else decoded, then trimmed; and on
`<jats:p>A &lt;B&gt; &amp; C</jats:p>` it yields `A <B> & C`. -/
theorem cleanAbstract_spec :
    (∀ s, cleanAbstract s = cleanAbstractSpec s) ∧
      cleanAbstract (js "<jats:p>A &lt;B&gt; &amp; C</jats:p>") = js "A <B> & C" := by
  refine ⟨?_, by decide⟩
  intro s
  rw [cleanAbstract_eq_stages]
  rfl

theorem chunks_append (f : Nat → JsString) (a b : JsString) :
    chunks f (a ++ b) = chunks f a ++ chunks f b := by
  induction a with
  | nil => rfl
  | cons x a ih => simp [chunks, ih]

theorem chunks_single (t : JsString) : chunks (fun x => [x]) t = t := by
  induction t with
  | nil => rfl
  | cons x t ih => simp [chunks, ih]

theorem replaceEvery_chunks (pat rep : JsString) (f g : Nat → JsString)
    (h : ∀ x rest, replaceEvery pat rep (f x ++ rest) = g x ++ replaceEvery pat rep rest) :
    ∀ t, replaceEvery pat rep (chunks f t) = chunks g t := by
  intro t
  induction t with
  | nil => exact replaceEvery_nil pat rep
  | cons x t ih => simp only [chunks, h, ih]

theorem escapeEntities_cons (x : Nat) (t : JsString) :
    escapeEntities (x :: t) =
      (if x = 0x26 then js "&amp;" else if x = 0x3C then js "&lt;"
        else if x = 0x3E then js "&gt;" else [x]) ++ escapeEntities t := by
  simp only [escapeEntities, replaceUnit, chunks, chunks_append]
  congr 1
  by_cases h1 : x = 0x26
  · subst h1; decide
  · by_cases h2 : x = 0x3C
    · subst h2; decide
    · by_cases h3 : x = 0x3E
      · subst h3; decide
      · simp [h1, h2, h3, chunks]


theorem decode_lt_chunk (x : Nat) (rest : JsString) :
    replaceEvery (js "&lt;") (js "<")
      ((if x = 0x26 then js "&amp;" else if x = 0x3C then js "&lt;"
        else if x = 0x3E then js "&gt;" else [x]) ++ rest) =
      (if x = 0x26 then js "&amp;" else if x = 0x3E then js "&gt;" else [x]) ++
        replaceEvery (js "&lt;") (js "<") rest := by
  have hlt : js "&lt;" = [0x26, 0x6C, 0x74, 0x3B] := by decide
  have hgt : js "&gt;" = [0x26, 0x67, 0x74, 0x3B] := by decide
  have hamp : js "&amp;" = [0x26, 0x61, 0x6D, 0x70, 0x3B] := by decide
  have hl : js "<" = [0x3C] := by decide
  rw [hlt, hgt, hamp, hl]
  by_cases h1 : x = 0x26
  · subst h1
    simp [replaceEvery_cons, List.isPrefixOf]
  · by_cases h2 : x = 0x3C
    · subst h2
      rw [if_neg (by decide), if_pos rfl,
        replaceEvery_hit _ _ _ (by decide) (by simp [List.isPrefixOf])]
      simp
    · by_cases h3 : x = 0x3E
      · subst h3
        simp [replaceEvery_cons, List.isPrefixOf]
      · have h1' : ¬ 0x26 = x := fun e => h1 e.symm
        simp [h1, h2, h3, h1', replaceEvery_cons, List.isPrefixOf]

theorem decode_gt_chunk (x : Nat) (rest : JsString) :
    replaceEvery (js "&gt;") (js ">")
      ((if x = 0x26 then js "&amp;" else if x = 0x3E then js "&gt;" else [x]) ++ rest) =
      (if x = 0x26 then js "&amp;" else [x]) ++ replaceEvery (js "&gt;") (js ">") rest := by
  have hgt : js "&gt;" = [0x26, 0x67, 0x74, 0x3B] := by decide
  have hamp : js "&amp;" = [0x26, 0x61, 0x6D, 0x70, 0x3B] := by decide
  have hg : js ">" = [0x3E] := by decide
  rw [hgt, hamp, hg]
  by_cases h1 : x = 0x26
  · subst h1
    simp [replaceEvery_cons, List.isPrefixOf]
  · by_cases h3 : x = 0x3E
    · subst h3
      rw [if_neg (by decide), if_pos rfl,
        replaceEvery_hit _ _ _ (by decide) (by simp [List.isPrefixOf])]
      simp
    · have h1' : ¬ 0x26 = x := fun e => h1 e.symm
      simp [h1, h3, h1', replaceEvery_cons, List.isPrefixOf]

theorem decode_amp_chunk (x : Nat) (rest : JsString) :
    replaceEvery (js "&amp;") (js "&") ((if x = 0x26 then js "&amp;" else [x]) ++ rest) =
      [x] ++ replaceEvery (js "&amp;") (js "&") rest := by
  have hamp : js "&amp;" = [0x26, 0x61, 0x6D, 0x70, 0x3B] := by decide
  have ha : js "&" = [0x26] := by decide
  rw [hamp, ha]
  by_cases h1 : x = 0x26
  · subst h1
    rw [if_pos rfl, replaceEvery_hit _ _ _ (by decide) (by simp [List.isPrefixOf])]
    simp
  · have h1' : ¬ 0x26 = x := fun e => h1 e.symm
    simp [h1, h1', replaceEvery_cons, List.isPrefixOf]

theorem escapeEntities_eq_chunks (t : JsString) :
    escapeEntities t =
      chunks (fun x => if x = 0x26 then js "&amp;" else if x = 0x3C then js "&lt;"
        else if x = 0x3E then js "&gt;" else [x]) t := by
  induction t with
  | nil => rfl
  | cons x t ih => rw [escapeEntities_cons, ih]; rfl

/-- Decoding the three entities in the order of `cleanAbstract` inverts the escaping. -/
theorem decode_escapeEntities (t : JsString) :
    replaceEvery (js "&amp;") (js "&") (replaceEvery (js "&gt;") (js ">")
      (replaceEvery (js "&lt;") (js "<") (escapeEntities t))) = t := by
  rw [escapeEntities_eq_chunks, replaceEvery_chunks _ _ _ _ decode_lt_chunk,
    replaceEvery_chunks _ _ _ _ decode_gt_chunk, replaceEvery_chunks _ _ _ _ decode_amp_chunk,
    chunks_single]

theorem escapeEntities_no_lt (t : JsString) : ∀ c ∈ escapeEntities t, c ≠ 0x3C := by
  induction t with
  | nil => intro c hc; simp [escapeEntities, replaceUnit, chunks] at hc
  | cons x t ih =>
    intro c hc
    rw [escapeEntities_cons, List.mem_append] at hc
    rcases hc with hc | hc
    · have hgt : js "&gt;" = [0x26, 0x67, 0x74, 0x3B] := by decide
      have hamp : js "&amp;" = [0x26, 0x61, 0x6D, 0x70, 0x3B] := by decide
      have hlt : js "&lt;" = [0x26, 0x6C, 0x74, 0x3B] := by decide
      rw [hgt, hamp, hlt] at hc
      split_ifs at hc with h1 h2 h3
      · simp at hc; omega
      · simp at hc; omega
      · simp at hc; omega
      · simp at hc; omega
    · exact ih c hc

theorem stripSpans_plain (e rest : JsString) (h : ∀ c ∈ e, c ≠ 0x3C) :
    stripSpans false (e ++ rest) = e ++ stripSpans false rest := by
  induction e with
  | nil => rfl
  | cons c e ih =>
    have hc : c ≠ 0x3C := h c (by simp)
    have := ih (fun d hd => h d (by simp [hd]))
    simp [stripSpans, hc, this]

theorem stripSpans_tag (a rest : JsString) (ha : 0x3E ∉ a) :
    stripSpans false (0x3C :: (a ++ 0x3E :: rest)) = stripSpans false rest := by
  have hall : ∀ c ∈ a, isNotGt c = true := by
    intro c hc
    have : c ≠ 0x3E := fun e => ha (e ▸ hc)
    simp [isNotGt, this]
  have hdw : (a ++ 0x3E :: rest).dropWhile isNotGt = 0x3E :: rest := by
    rw [List.dropWhile_append_of_pos hall]
    simp [List.dropWhile, isNotGt]
  simp only [stripSpans, List.mem_append, List.mem_cons, true_or, or_true, and_self, if_true]
  rw [stripSpans_true, hdw]
  rfl

/-- C10: `cleanAbstract` undoes entity escaping inside markup: for every text `t` and every
opening tag `<a>` and closing tag `<b>` (no `>` inside `a` or `b`), cleaning the escaped
text wrapped in the two tags gives `t` with surrounding white space trimmed. -/
theorem cleanAbstract_unescape (t a b : JsString) (ha : 0x3E ∉ a) (hb : 0x3E ∉ b) :
    cleanAbstract (js "<" ++ a ++ js ">" ++ escapeEntities t ++ js "<" ++ b ++ js ">") =
      trim t := by
  have hl : js "<" = [0x3C] := by decide
  have hg : js ">" = [0x3E] := by decide
  have hshape : js "<" ++ a ++ js ">" ++ escapeEntities t ++ js "<" ++ b ++ js ">" =
      0x3C :: (a ++ 0x3E :: (escapeEntities t ++ 0x3C :: (b ++ 0x3E :: []))) := by
    simp [hl, hg]
  have hstrip : stripSpans false
      (0x3C :: (a ++ 0x3E :: (escapeEntities t ++ 0x3C :: (b ++ 0x3E :: [])))) =
      escapeEntities t := by
    rw [stripSpans_tag _ _ ha, stripSpans_plain _ _ (escapeEntities_no_lt t),
      stripSpans_tag _ _ hb]
    simp [stripSpans]
  rw [cleanAbstract_eq_stages, hshape, hstrip, decode_escapeEntities]

/-- An escaped text with entities of its own, wrapped in `jats:p` tags. -/
theorem cleanAbstract_unescape_witness :
    cleanAbstract (js "<jats:p>" ++ escapeEntities (js " a<b & c>d &amp; ") ++ js "</jats:p>") =
      js "a<b & c>d &amp;" :=
  (cleanAbstract_unescape (js " a<b & c>d &amp; ") (js "jats:p") (js "/jats:p")
    (by decide) (by decide)).trans (by decide)

theorem doiForm_nonspace (m : JsString) (h : DoiForm m) : ∀ c ∈ m, isJsSpace c = false := by
  obtain ⟨ds, rest, rfl, -, hds, -, hrest⟩ := (doiForm_iff _).1 h
  intro c hc
  simp only [List.mem_cons, List.mem_append] at hc
  rcases hc with rfl | rfl | rfl | hc | rfl | hc
  · decide
  · decide
  · decide
  · have := hds c hc
    simp only [isDigit, Bool.and_eq_true, decide_eq_true_eq] at this
    simp [isJsSpace]; omega
  · decide
  · simpa [isNonSpace] using hrest c hc

theorem rdropWhile_split (p : Nat → Bool) (l : List Nat) :
    ∃ w, l = l.rdropWhile p ++ w ∧ ∀ c ∈ w, p c = true := by
  refine ⟨(l.reverse.takeWhile p).reverse, ?_, ?_⟩
  · have h := List.takeWhile_append_dropWhile p l.reverse
    have h2 := congrArg List.reverse h
    rw [List.reverse_append, List.reverse_reverse] at h2
    rw [List.rdropWhile]
    exact h2.symm
  · intro c hc
    exact List.mem_takeWhile_imp (List.mem_reverse.1 hc)

theorem trim_split (s : JsString) :
    ∃ lead tail, s = lead ++ trim s ++ tail ∧ (∀ c ∈ lead, isJsSpace c = true) ∧
      ∀ c ∈ tail, isJsSpace c = true := by
  obtain ⟨w, hw, hall⟩ := rdropWhile_split isJsSpace (s.dropWhile isJsSpace)
  refine ⟨s.takeWhile isJsSpace, w, ?_, fun c hc => List.mem_takeWhile_imp hc, hall⟩
  rw [List.append_assoc]
  unfold trim
  rw [← hw, List.takeWhile_append_dropWhile]

theorem regexMatch0_cons_of_none (re : Regex) (hb : re.bos = false) (x : Nat) (s : List Nat)
    (h : matchAtoms re.atoms (x :: s) = none) :
    regexMatch0 re (x :: s) = regexMatch0 re s := by
  simp only [regexMatch0, regexExec, h, hb, Bool.false_eq_true, if_false, Option.map_map]
  rfl

theorem regexMatch0_doi (lead m tail : JsString) (hlead : ∀ c ∈ lead, isJsSpace c = true)
    (hm : DoiForm m) (htail : ∀ c u, tail = c :: u → isJsSpace c = true) :
    regexMatch0 doiSearchPattern (lead ++ m ++ tail) = some m := by
  induction lead with
  | nil =>
    have hmatch : matchAtoms doiSearchPattern.atoms (m ++ tail) = some m.length :=
      (doiCore_match_iff _ _).2 ⟨m, tail, rfl, hm, rfl, htail, doiForm_nonspace m hm⟩
    have hne := doiForm_ne_nil m hm
    obtain ⟨x, m', rfl⟩ := List.exists_cons_of_ne_nil hne
    simp only [List.nil_append, List.cons_append] at hmatch ⊢
    simp only [regexMatch0, regexExec, hmatch, Option.map_some']
    simp
  | cons w lead ih =>
    have hw : isJsSpace w = true := hlead w (by simp)
    have hnone : matchAtoms doiSearchPattern.atoms (w :: (lead ++ m ++ tail)) = none := by
      cases hr : matchAtoms doiSearchPattern.atoms (w :: (lead ++ m ++ tail)) with
      | none => rfl
      | some n =>
        obtain ⟨m', tail', hsplit, hform, -, -, hns⟩ := (doiCore_match_iff _ _).1 hr
        obtain ⟨x, m'', rfl⟩ := List.exists_cons_of_ne_nil (doiForm_ne_nil m' hform)
        simp only [List.cons_append, List.cons.injEq] at hsplit
        have := hns x (by simp)
        rw [← hsplit.1, hw] at this
        exact absurd this (by simp)
    have h := regexMatch0_cons_of_none doiSearchPattern rfl w _ hnone
    simp only [List.cons_append]
    rw [h]
    exact ih (fun c hc => hlead c (by simp [hc]))

/-- C11: classification and extraction agree, and extraction is idempotent: for every string
`s` with `isDOI s` true, `extractDOI s` is `s` with surrounding white space trimmed, and the
`cleanDOI` that `searchByDOI` looks up for the trimmed query is the whole trimmed query; for
every string `s`, `extractDOI (extractDOI s) = extractDOI s`. -/
theorem extractDOI_agrees (s : JsString) :
    (isDOI s = true → extractDOI s = trim s ∧ cleanDOI (trim s) = trim s) ∧
      extractDOI (extractDOI s) = extractDOI s := by
  constructor
  · intro h
    have hform : DoiForm (trim s) := (isDOI_eq_true_iff s).1 h
    obtain ⟨lead, tail, hs, hlead, htail⟩ := trim_split s
    have h1 : regexMatch0 doiSearchPattern (lead ++ trim s ++ tail) = some (trim s) :=
      regexMatch0_doi lead (trim s) tail hlead hform (fun c u hcu => htail c (by simp [hcu]))
    have h2 : regexMatch0 doiSearchPattern ([] ++ trim s ++ []) = some (trim s) :=
      regexMatch0_doi [] (trim s) [] (by simp) hform (by simp)
    constructor
    · conv_lhs => rw [hs]
      simp only [extractDOI, h1]
    · simp only [List.nil_append, List.append_nil] at h2
      simp only [cleanDOI, extractDOI, h2]
  · cases h : regexExec doiSearchPattern s with
    | none => simp [extractDOI, regexMatch0, h]
    | some r =>
      obtain ⟨i, n⟩ := r
      obtain ⟨h1, -, -⟩ := regexExec_some doiSearchPattern rfl s i n h
      obtain ⟨m, tail, hmt, hform, rfl, -, -⟩ := (doiCore_match_iff _ _).1 h1
      have he : extractDOI s = m := by simp [extractDOI, regexMatch0, h, hmt]
      have h2 : regexMatch0 doiSearchPattern ([] ++ m ++ []) = some m :=
        regexMatch0_doi [] m [] (by simp) hform (by simp)
      simp only [List.nil_append, List.append_nil] at h2
      rw [he]
      simp only [extractDOI, h2]

/-- A query with surrounding blanks: the extracted DOI is the trimmed query. -/
theorem extractDOI_agrees_witness :
    extractDOI (js "  10.1038/nature12373 ") = js "10.1038/nature12373" ∧
      cleanDOI (js "10.1038/nature12373") = js "10.1038/nature12373" :=
  (extractDOI_agrees (js "  10.1038/nature12373 ")).1 (by decide)

end LiteratureFinder
